import Mathlib

/-!
Verification of `solve.ts`: Shamir secret-sharing reconstruction.

The program decodes base-encoded share values into arbitrary-precision
integer points and recovers the polynomial's constant term f(0) by Lagrange
interpolation over BigInt arithmetic.  The embedding below translates each
function of `solve.ts`; JavaScript BigInt division truncates toward zero
(modelled with `Int.tdiv`) and throws a RangeError on division by zero
(modelled with `Except`); the only explicit `throw` in the source is the
invalid-digit error of `parseBigIntWithBase`, which carries the offending
(lower-cased) character and the base.
-/

namespace Solve

/-- A point (x, y) on the polynomial; both coordinates are JS BigInt,
modelled as unbounded `Int` (`interface Point` in `solve.ts`). -/
structure Point where
  x : Int
  y : Int
deriving DecidableEq

/-- The failure modes of the program: the explicit invalid-character throw of
`parseBigIntWithBase` (carrying the lower-cased character and the base), and
the JS RangeError raised by BigInt division by zero in `findSecret`. -/
inductive Err where
  | invalidDigit : Char → Nat → Err
  | divisionByZero : Err
deriving DecidableEq

/-- The digit alphabet `'0123456789abcdefghijklmnopqrstuvwxyz'` of
`parseBigIntWithBase`. -/
def digits : List Char := "0123456789abcdefghijklmnopqrstuvwxyz".toList

/-- Helper for `indexOfChar`: scan with a running index. -/
def indexOfAux (c : Char) : List Char → Nat → Option Nat
  | [], _ => none
  | d :: ds, i => if d = c then some i else indexOfAux c ds (i + 1)

/-- JS `String.prototype.indexOf` restricted to a single-character needle;
`none` models the JS result `-1`. -/
def indexOfChar (l : List Char) (c : Char) : Option Nat :=
  indexOfAux c l 0

/-- The loop of `parseBigIntWithBase`: for each character, lower-case it,
look it up in `digits`, reject it when absent or when its value reaches
`base`, otherwise accumulate `result * base + digitValue`. -/
def parseLoop (base : Nat) : List Char → Int → Except Err Int
  | [], result => .ok result
  | c :: cs, result =>
    let ch := c.toLower
    match indexOfChar digits ch with
    | none => .error (.invalidDigit ch base)
    | some d =>
      if d ≥ base then .error (.invalidDigit ch base)
      else parseLoop base cs (result * (base : Int) + (d : Int))

/-- `parseBigIntWithBase(value, base)` of `solve.ts`: big-endian Horner
accumulation starting from `0n`. -/
def parseBigIntWithBase (value : List Char) (base : Nat) : Except Err Int :=
  parseLoop base value 0

/-- One record of the input JSON: a share identifier (the JSON object key,
a canonical decimal numeral, kept here as the `Nat` it denotes), a base and
a digit string. -/
structure Entry where
  key : Nat
  base : Nat
  value : List Char
deriving DecidableEq

/-- Key ordering used to model JS `for...in` enumeration. -/
def keyLE (a b : Entry) : Prop := a.key ≤ b.key

instance : DecidableRel keyLE := fun a b => Nat.decLe a.key b.key

/-- The order in which `for (const key in data)` visits the share records:
ECMAScript enumerates own keys that are canonical array indices (which the
decimal share identifiers are) in ascending numeric order, before any other
key such as `"keys"` (which the loop skips).  So the records are visited in
ascending order of identifier, whatever their declaration order. -/
def enumOrder (entries : List Entry) : List Entry :=
  List.insertionSort keyLE entries

/-- Decoding of one record inside `getPointsFromJSON`: `x = BigInt(key)`,
`y = parseBigIntWithBase(value, base)`. -/
def decodePoint (e : Entry) : Except Err Point :=
  (parseBigIntWithBase e.value e.base).map (fun y => ⟨(e.key : Int), y⟩)

/-- `getPointsFromJSON` of `solve.ts`: visit the records in JS enumeration
order and decode each into a point; a decoding throw propagates. -/
def getPointsFromJSON (entries : List Entry) : Except Err (List Point) :=
  (enumOrder entries).mapM decodePoint

/-- The inner loop of `findSecret`: over every index m ≠ j multiply
`numerator` by `(0n - points[m].x)` and `denominator` by
`(cur.x - points[m].x)`. -/
def innerAux (cur : Point) (j : Nat) : List (Nat × Point) → Int → Int → Int × Int
  | [], num, den => (num, den)
  | (m, q) :: rest, num, den =>
    if j ≠ m then innerAux cur j rest (num * (0 - q.x)) (den * (cur.x - q.x))
    else innerAux cur j rest num den

/-- The (numerator, denominator) pair computed for index `j` by the inner
loop of `findSecret`. -/
def innerLoop (points : List Point) (cur : Point) (j : Nat) : Int × Int :=
  innerAux cur j points.enum 1 1

/-- The outer loop of `findSecret`: accumulate
`secret += (y_j * numerator) / denominator` (JS BigInt `/` truncates toward
zero; dividing by `0n` throws a RangeError, modelled as an error). -/
def secretLoop (points : List Point) : List (Nat × Point) → Int → Except Err Int
  | [], secret => .ok secret
  | (j, p) :: rest, secret =>
    let nd := innerLoop points p j
    if nd.2 = 0 then .error .divisionByZero
    else secretLoop points rest (secret + (p.y * nd.1).tdiv nd.2)

/-- `findSecret(points)` of `solve.ts`. -/
def findSecret (points : List Point) : Except Err Int :=
  secretLoop points points.enum 0

/-- The first-k selection of `main`: `allPoints.slice(0, k)` applied to the
decoded points. -/
def mainPointsToUse (entries : List Entry) (k : Nat) : Except Err (List Point) :=
  (getPointsFromJSON entries).map (fun ps => ps.take k)

/-- The computational pipeline of `main`: decode all records, keep the first
`k` points, interpolate; any thrown error reaches the catch block and no
secret is printed. -/
def mainSecret (entries : List Entry) (k : Nat) : Except Err Int :=
  match getPointsFromJSON entries with
  | .error e => .error e
  | .ok allPoints => findSecret (allPoints.take k)

/-! Specification-side definitions, used to state the claims. -/

/-- The digit value of a character under the spec's case-folded alphabet
(defaulting to 0 for characters outside the alphabet; only used under
hypotheses that rule that out). -/
def charDigit (c : Char) : Nat := (indexOfChar digits c.toLower).getD 0

/-- The value of a digit string read as a big-endian positional numeral:
each digit is weighted by `base` to the power of its distance from the end.
Stated with positional weights, not with Horner's accumulation, so that the
Horner claim about `parseBigIntWithBase` is not circular. -/
def bigEndianValue (base : Nat) : List Char → Nat
  | [] => 0
  | c :: cs => charDigit c * base ^ cs.length + bigEndianValue base cs

/-- A digit character is rejected for `base` when it is outside the alphabet
or its value is at least `base`. -/
def isBadDigit (c : Char) (base : Nat) : Bool :=
  match indexOfChar digits c with
  | none => true
  | some d => base ≤ d

/-- Evaluation of an integer-coefficient polynomial given by its coefficient
list (constant term first). -/
def evalPoly (coeffs : List Int) (x : Int) : Int :=
  coeffs.foldr (fun a acc => a + x * acc) 0

/-- The fully multiplied Lagrange numerator for index `j` at 0:
`Π over m ≠ j of (−x_m)`. -/
def specNumerator (points : List Point) (j : Nat) : Int :=
  ((points.enum.filter (fun mp => j ≠ mp.1)).map (fun mp => -mp.2.x)).prod

/-- The fully multiplied Lagrange denominator for index `j`:
`Π over m ≠ j of (x_j − x_m)`. -/
def specDenominator (points : List Point) (cur : Point) (j : Nat) : Int :=
  ((points.enum.filter (fun mp => j ≠ mp.1)).map (fun mp => cur.x - mp.2.x)).prod

/-- The term contributed by index `j`: a single truncating division of the
fully multiplied numerator by the fully multiplied denominator. -/
def specTerm (points : List Point) (jp : Nat × Point) : Int :=
  (jp.2.y * specNumerator points jp.1).tdiv (specDenominator points jp.2 jp.1)

end Solve

namespace Solve

/-! Theorems about the Base Decoder. -/

/-- C9: for every base, decoding the empty string succeeds and returns 0:
the loop body never runs and the accumulator keeps its initial value `0n`. -/
theorem parse_empty_eq_zero (base : Nat) : parseBigIntWithBase [] base = .ok 0 := rfl

/-- Helper: the loop of `parseBigIntWithBase` realises big-endian positional
evaluation, for any starting accumulator, when every character is a valid
digit below the base. -/
theorem parseLoop_ok_of_digits (base : Nat) (value : List Char) :
    ∀ acc : Int,
      (∀ c ∈ value, (indexOfChar digits (c.toLower)).isSome ∧ charDigit c < base) →
      parseLoop base value acc =
        .ok (acc * (base : Int) ^ value.length + ((bigEndianValue base value : Nat) : Int)) := by
  induction value with
  | nil => intro acc _; simp [parseLoop, bigEndianValue]
  | cons c cs ih =>
    intro acc hdig
    obtain ⟨hs, hlt⟩ := hdig c (List.mem_cons_self c cs)
    obtain ⟨d, hd⟩ := Option.isSome_iff_exists.mp hs
    have hcd : charDigit c = d := by simp [charDigit, hd]
    have hdlt : d < base := hcd ▸ hlt
    simp only [parseLoop, hd]
    rw [if_neg (by omega)]
    rw [ih _ (fun c' hc' => hdig c' (List.mem_cons_of_mem _ hc'))]
    congr 1
    rw [bigEndianValue, hcd]
    push_cast
    simp only [List.length_cons, pow_succ]
    ring

/-- C2: for every non-empty digit string whose characters (case-folded) all
have alphabet position below the base, and every base in [2, 36],
`parseBigIntWithBase` returns exactly the value of the string read as a
big-endian positional numeral in that base, with no precision loss. -/
theorem parse_horner_exact (value : List Char) (base : Nat)
    (h2 : 2 ≤ base) (h36 : base ≤ 36) (hne : value ≠ [])
    (hdig : ∀ c ∈ value, (indexOfChar digits (c.toLower)).isSome ∧ charDigit c < base) :
    parseBigIntWithBase value base = .ok ((bigEndianValue base value : Nat) : Int) := by
  have h := parseLoop_ok_of_digits base value 0 hdig
  simpa using h

/-- Witness for C2: decoding "aed7" in base 16 yields 44759. -/
theorem parse_horner_exact_witness :
    parseBigIntWithBase ['a', 'e', 'd', '7'] 16 =
        .ok ((bigEndianValue 16 ['a', 'e', 'd', '7'] : Nat) : Int) ∧
      bigEndianValue 16 ['a', 'e', 'd', '7'] = 44759 :=
  ⟨parse_horner_exact ['a', 'e', 'd', '7'] 16 (by omega) (by omega) (by decide) (by decide),
   by decide⟩

/-- Helper: an index returned by `indexOfAux` is below the running index plus
the length of the scanned list. -/
theorem indexOfAux_lt_of_eq_some {c : Char} {l : List Char} :
    ∀ {i d : Nat}, indexOfAux c l i = some d → d < i + l.length := by
  induction l with
  | nil => intro i d h; simp [indexOfAux] at h
  | cons a as ih =>
    intro i d h
    rw [indexOfAux] at h
    split at h
    · injection h with h; simp only [List.length_cons]; omega
    · have := ih h; simp only [List.length_cons]; omega

/-- Helper: with any base of at least 36, the loop of `parseBigIntWithBase`
never rejects a character that is in the 36-symbol alphabet. -/
theorem parseLoop_ok_of_large_base {base : Nat} (h36 : 36 ≤ base) (value : List Char) :
    ∀ acc : Int, (∀ c ∈ value, (indexOfChar digits (c.toLower)).isSome) →
      ∃ n, parseLoop base value acc = .ok n := by
  induction value with
  | nil => intro acc _; exact ⟨acc, rfl⟩
  | cons c cs ih =>
    intro acc h
    obtain ⟨d, hd⟩ := Option.isSome_iff_exists.mp (h c (List.mem_cons_self c cs))
    have hlen : digits.length = 36 := rfl
    have hdlt : d < 36 := by
      have := indexOfAux_lt_of_eq_some (c := c.toLower) (l := digits) hd
      omega
    simp only [parseLoop, hd]
    rw [if_neg (by omega)]
    exact ih _ (fun c' hc' => h c' (List.mem_cons_of_mem _ hc'))

/-- C6 (amended): `parseBigIntWithBase` performs no base-range validation.
With base 37 any digit string drawn from the 36-symbol alphabet decodes
successfully (as a base-37 numeral); no InvalidBase failure exists. -/
theorem parse_base37_succeeds (value : List Char)
    (h : ∀ c ∈ value, (indexOfChar digits (c.toLower)).isSome) :
    ∃ n, parseBigIntWithBase value 37 = .ok n :=
  parseLoop_ok_of_large_base (by omega) value 0 h

/-- Witness for the amended C6: "z" decodes in base 37. -/
theorem parse_base37_succeeds_witness :
    (∀ c ∈ (['z'] : List Char), (indexOfChar digits (c.toLower)).isSome) ∧
      ∃ n, parseBigIntWithBase ['z'] 37 = .ok n :=
  ⟨by decide, parse_base37_succeeds ['z'] (by decide)⟩

/-- Counterexample to C6: base 37 is outside [2, 36], yet decoding "z"
succeeds with value 35 and the end-to-end pipeline prints a secret. -/
theorem parse_base37_counterexample :
    parseBigIntWithBase ['z'] 37 = .ok 35 ∧ mainSecret [⟨1, 37, ['z']⟩] 1 = .ok 35 :=
  ⟨rfl, rfl⟩

/-- Helper: the loop of `parseBigIntWithBase` rejects a string containing a
bad character with the invalid-digit error, whatever the accumulator. -/
theorem parseLoop_error_of_bad (base : Nat) (value : List Char) :
    ∀ acc : Int, (∃ c ∈ value, isBadDigit (c.toLower) base = true) →
      ∃ c, isBadDigit c base = true ∧
        parseLoop base value acc = .error (.invalidDigit c base) := by
  induction value with
  | nil => intro acc h; simp at h
  | cons c cs ih =>
    intro acc hbad
    cases hidx : indexOfChar digits (c.toLower) with
    | none =>
      refine ⟨c.toLower, ?_, ?_⟩
      · simp [isBadDigit, hidx]
      · simp [parseLoop, hidx]
    | some d =>
      by_cases hge : d ≥ base
      · refine ⟨c.toLower, ?_, ?_⟩
        · simp [isBadDigit, hidx]; omega
        · simp only [parseLoop, hidx]
          rw [if_pos hge]
      · have hcs : ∃ c' ∈ cs, isBadDigit (c'.toLower) base = true := by
          obtain ⟨c', hc', hb⟩ := hbad
          rcases List.mem_cons.mp hc' with rfl | hmem
          · exfalso; simp [isBadDigit, hidx] at hb; omega
          · exact ⟨c', hmem, hb⟩
        obtain ⟨c0, hb0, herr⟩ := ih (acc * (base : Int) + (d : Int)) hcs
        refine ⟨c0, hb0, ?_⟩
        simp only [parseLoop, hidx]
        rw [if_neg hge]
        exact herr

/-- C7: for every base in [2, 36], whenever the input contains a character
that is outside the alphabet or whose digit value reaches the base,
`parseBigIntWithBase` fails with the invalid-digit error carrying such an
offending (case-folded) character together with the base. -/
theorem parse_invalid_digit_error (value : List Char) (base : Nat)
    (h2 : 2 ≤ base) (h36 : base ≤ 36)
    (hbad : ∃ c ∈ value, isBadDigit (c.toLower) base = true) :
    ∃ c, isBadDigit c base = true ∧
      parseBigIntWithBase value base = .error (.invalidDigit c base) :=
  parseLoop_error_of_bad base value 0 hbad

/-- Witness for C7: decoding "a" in base 10 fails with the invalid-digit
error. -/
theorem parse_invalid_digit_error_witness :
    (∃ c ∈ (['a'] : List Char), isBadDigit (c.toLower) 10 = true) ∧
      ∃ c, isBadDigit c 10 = true ∧
        parseBigIntWithBase ['a'] 10 = .error (.invalidDigit c 10) :=
  ⟨by decide, parse_invalid_digit_error ['a'] 10 (by omega) (by omega) (by decide)⟩

end Solve

namespace Solve

/-! Theorems about the Interpolator. -/

/-- C10: `findSecret` on the empty point list returns 0 (the sum over zero
terms), and on a single point (x, y) returns y, with no error. -/
theorem findSecret_nil_and_singleton :
    findSecret [] = .ok 0 ∧ ∀ x y : Int, findSecret [⟨x, y⟩] = .ok y := by
  refine ⟨rfl, fun x y => ?_⟩
  show secretLoop [⟨x, y⟩] [(0, ⟨x, y⟩)] 0 = .ok y
  simp [secretLoop, innerLoop, innerAux, List.enum, List.enumFrom, Int.tdiv_one]

/-- C1 fails on the code: the shares (1,1), (2,4), (4,16) lie on the
integer polynomial f(x) = x² of degree 2 = k−1 with pairwise-distinct
abscissas, f(0) = 0, yet `findSecret` returns −1: the per-term BigInt
division truncates the non-integral Lagrange terms 8/3 and 32/6. -/
theorem findSecret_truncates_on_quadratic :
    evalPoly [0, 0, 1] 0 = 0 ∧ evalPoly [0, 0, 1] 1 = 1 ∧ evalPoly [0, 0, 1] 2 = 4 ∧
      evalPoly [0, 0, 1] 4 = 16 ∧ findSecret [⟨1, 1⟩, ⟨2, 4⟩, ⟨4, 16⟩] = .ok (-1) :=
  ⟨rfl, rfl, rfl, rfl, rfl⟩

/-- C4 fails on the code: on the points (1,0), (3,1) the term for j = 1 has
numerator 1 × (−1) and denominator 2, which does not divide it, yet
`findSecret` raises no error and silently truncates (−1)/2 to 0, returning
the secret 0. -/
theorem findSecret_inexact_division_truncated :
    specDenominator [⟨1, 0⟩, ⟨3, 1⟩] ⟨3, 1⟩ 1 = 2 ∧
      specNumerator [⟨1, 0⟩, ⟨3, 1⟩] 1 = -1 ∧
      ¬ specDenominator [⟨1, 0⟩, ⟨3, 1⟩] ⟨3, 1⟩ 1 ∣
          (Point.mk 3 1).y * specNumerator [⟨1, 0⟩, ⟨3, 1⟩] 1 ∧
      findSecret [⟨1, 0⟩, ⟨3, 1⟩] = .ok 0 := by
  refine ⟨rfl, rfl, ?_, rfl⟩
  intro h
  have h2 : (2 : Int) ∣ (1 * -1 : Int) := h
  omega

/-- Helper: the inner loop of `findSecret` computes, for the pair of
accumulators, the accumulators times the fully multiplied Lagrange numerator
and denominator products over the remaining indexed points. -/
theorem innerAux_eq (cur : Point) (j : Nat) :
    ∀ (l : List (Nat × Point)) (num den : Int),
      innerAux cur j l num den =
        (num * ((l.filter (fun mp => j ≠ mp.1)).map (fun mp => -mp.2.x)).prod,
          den * ((l.filter (fun mp => j ≠ mp.1)).map (fun mp => cur.x - mp.2.x)).prod) := by
  intro l
  induction l with
  | nil => intro num den; simp [innerAux]
  | cons mq rest ih =>
    intro num den
    obtain ⟨m, q⟩ := mq
    by_cases h : j ≠ m
    · rw [innerAux, if_pos h, ih]
      simp [List.filter_cons, h, mul_assoc]
    · rw [innerAux, if_neg h, ih]
      simp [List.filter_cons, h]

/-- Helper: the (numerator, denominator) pair of `findSecret` for index `j`
is exactly the pair of fully multiplied products. -/
theorem innerLoop_eq (points : List Point) (cur : Point) (j : Nat) :
    innerLoop points cur j = (specNumerator points j, specDenominator points cur j) := by
  rw [innerLoop, innerAux_eq]
  simp [specNumerator, specDenominator]

/-- Helper: the indexed pair (i, points[i]) occurs in the enumeration of the
point list. -/
theorem mem_enum_self (points : List Point) (i : Nat) (hi : i < points.length) :
    (i, points[i]) ∈ points.enum := by
  have hi2 : i < points.enum.length := by rw [List.enum_length]; exact hi
  have h := List.getElem_enum points i hi2
  exact h ▸ List.getElem_mem hi2

/-- Helper: a duplicated abscissa makes the fully multiplied denominator of
the colliding index vanish. -/
theorem specDenominator_eq_zero (points : List Point) (i j : Nat)
    (hi : i < points.length) (hj : j < points.length) (hij : i ≠ j)
    (hx : points[i].x = points[j].x) :
    specDenominator points points[i] i = 0 := by
  apply List.prod_eq_zero
  have hmem : (j, points[j]) ∈ points.enum := mem_enum_self points j hj
  have hmemf : (j, points[j]) ∈ points.enum.filter (fun mp => i ≠ mp.1) := by
    rw [List.mem_filter]
    exact ⟨hmem, by simpa using hij⟩
  have h0 : (fun mp : Nat × Point => points[i].x - mp.2.x) (j, points[j]) = 0 := by
    simpa using sub_eq_zero_of_eq hx
  exact h0 ▸ List.mem_map_of_mem _ hmemf

/-- Helper: if some indexed point in the remaining list has a vanishing
denominator, the outer loop of `findSecret` hits the division-by-zero
RangeError, whatever the accumulator. -/
theorem secretLoop_error_of_mem (points : List Point) :
    ∀ (l : List (Nat × Point)) (acc : Int),
      (∃ jp ∈ l, specDenominator points jp.2 jp.1 = 0) →
      secretLoop points l acc = .error .divisionByZero := by
  intro l
  induction l with
  | nil => intro acc h; simp at h
  | cons jp rest ih =>
    intro acc h
    obtain ⟨j, p⟩ := jp
    by_cases h0 : specDenominator points p j = 0
    · rw [secretLoop]
      simp [innerLoop_eq, h0]
    · have hrest : ∃ q ∈ rest, specDenominator points q.2 q.1 = 0 := by
        obtain ⟨q, hq, hq0⟩ := h
        rcases List.mem_cons.mp hq with rfl | hmem
        · exact absurd hq0 h0
        · exact ⟨q, hmem, hq0⟩
      rw [secretLoop]
      simp only [innerLoop_eq]
      rw [if_neg h0]
      exact ih _ hrest

/-- C5: whenever two points of the input share the same abscissa,
`findSecret` fails with the division-by-zero error (the denominator product
of the colliding index vanishes, and JS BigInt division by `0n` throws);
it never returns a numeric result. -/
theorem findSecret_duplicate_x_errors (points : List Point) (i j : Nat)
    (hi : i < points.length) (hj : j < points.length) (hij : i ≠ j)
    (hx : points[i].x = points[j].x) :
    findSecret points = .error .divisionByZero := by
  rw [findSecret]
  apply secretLoop_error_of_mem
  exact ⟨(i, points[i]), mem_enum_self points i hi,
    specDenominator_eq_zero points i j hi hj hij hx⟩

/-- Witness for C5: the points (1,1) and (1,2) share the abscissa 1, and
`findSecret` fails on them. -/
theorem findSecret_duplicate_x_errors_witness :
    (0 : Nat) ≠ 1 ∧
      ([⟨1, 1⟩, ⟨1, 2⟩] : List Point)[0].x = ([⟨1, 1⟩, ⟨1, 2⟩] : List Point)[1].x ∧
      findSecret [⟨1, 1⟩, ⟨1, 2⟩] = .error .divisionByZero :=
  ⟨by decide, rfl,
    findSecret_duplicate_x_errors [⟨1, 1⟩, ⟨1, 2⟩] 0 1 (by decide) (by decide) (by decide) rfl⟩

end Solve

namespace Solve

/-- Helper: pairwise-distinct mapped abscissas separate any two distinct
indices. -/
theorem x_ne_of_pairwise (points : List Point)
    (hdist : (points.map Point.x).Pairwise (fun a b => a ≠ b))
    {a b : Nat} (ha : a < points.length) (hb : b < points.length) (hab : a ≠ b) :
    points[a].x ≠ points[b].x := by
  have h := List.pairwise_iff_getElem.mp hdist
  rcases Nat.lt_or_ge a b with hlt | hge
  · have := h a b (by simpa) (by simpa) hlt
    simpa using this
  · have hlt : b < a := by omega
    have := h b a (by simpa) (by simpa) hlt
    simp only [List.getElem_map] at this
    exact fun hEq => this hEq.symm

/-- Helper: under pairwise-distinct abscissas, every fully multiplied
denominator of an enumerated point is nonzero. -/
theorem specDenominator_ne_zero (points : List Point)
    (hdist : (points.map Point.x).Pairwise (fun a b => a ≠ b))
    (j : Nat) (p : Point) (hmem : (j, p) ∈ points.enum) :
    specDenominator points p j ≠ 0 := by
  apply List.prod_ne_zero
  intro hmem0
  obtain ⟨mp, hmpf, heq0⟩ := List.mem_map.mp hmem0
  obtain ⟨hmp, hne⟩ := List.mem_filter.mp hmpf
  have hne2 : j ≠ mp.1 := by simpa using hne
  have hjl : j < points.length ∧ points[j]? = some p := by
    have := List.mem_enum_iff_getElem?.mp hmem
    exact ⟨by
      have := List.getElem?_eq_some.mp this
      exact this.1, this⟩
  obtain ⟨hj, hjp⟩ := hjl
  have hml : mp.1 < points.length ∧ points[mp.1]? = some mp.2 := by
    have := List.mem_enum_iff_getElem?.mp hmp
    exact ⟨by
      have := List.getElem?_eq_some.mp this
      exact this.1, this⟩
  obtain ⟨hm, hmp2⟩ := hml
  have hpj : points[j] = p := by
    have := List.getElem?_eq_getElem hj
    rw [this] at hjp
    exact Option.some.inj hjp
  have hpm : points[mp.1] = mp.2 := by
    have := List.getElem?_eq_getElem hm
    rw [this] at hmp2
    exact Option.some.inj hmp2
  have hxne : points[j].x ≠ points[mp.1].x :=
    x_ne_of_pairwise points hdist hj hm hne2
  rw [hpj, hpm] at hxne
  exact hxne (sub_eq_zero.mp heq0)

/-- Helper: when every remaining denominator is nonzero, the outer loop of
`findSecret` returns the accumulator plus the sum of the per-index terms,
each a single division of the fully multiplied products. -/
theorem secretLoop_ok_of_dens_ne_zero (points : List Point) :
    ∀ (l : List (Nat × Point)) (acc : Int),
      (∀ jp ∈ l, specDenominator points jp.2 jp.1 ≠ 0) →
      secretLoop points l acc = .ok (acc + (l.map (specTerm points)).sum) := by
  intro l
  induction l with
  | nil => intro acc _; simp [secretLoop]
  | cons jp rest ih =>
    intro acc h
    obtain ⟨j, p⟩ := jp
    have h0 := h (j, p) (List.mem_cons_self _ _)
    rw [secretLoop]
    simp only [innerLoop_eq]
    rw [if_neg h0]
    rw [ih _ (fun q hq => h q (List.mem_cons_of_mem _ hq))]
    simp [specTerm, add_assoc]

/-- C8: on any point list with pairwise-distinct abscissas, `findSecret`
computes each term as one division of the fully multiplied numerator
`y_j × Π over m ≠ j of (−x_m)` by the fully multiplied denominator
`Π over m ≠ j of (x_j − x_m)` — the products are complete before the single
per-term division happens — and returns the sum of the terms. -/
theorem findSecret_single_division_sum (points : List Point)
    (hdist : (points.map Point.x).Pairwise (fun a b => a ≠ b)) :
    findSecret points = .ok ((points.enum.map (specTerm points)).sum) := by
  rw [findSecret]
  rw [secretLoop_ok_of_dens_ne_zero points points.enum 0
    (fun jp hjp => specDenominator_ne_zero points hdist jp.1 jp.2 hjp)]
  simp

/-- Witness for C8: on the points (1,5), (2,7) the sum of single-division
terms is computed, and it equals 3. -/
theorem findSecret_single_division_sum_witness :
    (([⟨1, 5⟩, ⟨2, 7⟩] : List Point).map Point.x).Pairwise (fun a b => a ≠ b) ∧
      findSecret [⟨1, 5⟩, ⟨2, 7⟩] =
        .ok ((([⟨1, 5⟩, ⟨2, 7⟩] : List Point).enum.map (specTerm [⟨1, 5⟩, ⟨2, 7⟩])).sum) ∧
      ((([⟨1, 5⟩, ⟨2, 7⟩] : List Point).enum.map (specTerm [⟨1, 5⟩, ⟨2, 7⟩])).sum = 3) :=
  ⟨by decide, findSecret_single_division_sum _ (by decide), by decide⟩

end Solve

namespace Solve

/-- Counterexample to C3: declare the record with identifier 2 first and the
record with identifier 1 second, with k = 1.  The point handed to the
interpolator is (1, 7) — ascending identifier order — not the
declared-first record, whose decoding is (2, 5). -/
theorem selection_not_declared_order :
    mainPointsToUse [⟨2, 10, ['5']⟩, ⟨1, 10, ['7']⟩] 1 = .ok [⟨1, 7⟩] ∧
      (([⟨2, 10, ['5']⟩, ⟨1, 10, ['7']⟩] : List Entry).take 1).mapM decodePoint = .ok [⟨2, 5⟩] ∧
      ([⟨1, 7⟩] : List Point) ≠ [⟨2, 5⟩] :=
  ⟨rfl, rfl, by decide⟩

instance : IsTotal Entry keyLE := ⟨fun a b => Nat.le_total a.key b.key⟩

instance : IsTrans Entry keyLE := ⟨fun _ _ _ h1 h2 => Nat.le_trans h1 h2⟩

/-- Helper: with pairwise-distinct keys the enumeration order is strictly
increasing in the key. -/
theorem enumOrder_pairwise_lt (e : List Entry)
    (hkeys : e.Pairwise (fun a b => a.key ≠ b.key)) :
    (enumOrder e).Pairwise (fun a b => a.key < b.key) := by
  have hs : (enumOrder e).Pairwise keyLE := List.sorted_insertionSort keyLE e
  have hperm : (enumOrder e).Perm e := List.perm_insertionSort keyLE e
  have hne : (enumOrder e).Pairwise (fun a b => a.key ≠ b.key) :=
    (hperm.pairwise_iff (fun h => h.symm)).mpr hkeys
  exact (hs.and hne).imp (fun h => Nat.lt_of_le_of_ne h.1 h.2)

/-- Helper: two declaration orders of the same records with pairwise-distinct
keys are visited identically by the JS enumeration. -/
theorem enumOrder_eq_of_perm (e₁ e₂ : List Entry) (hperm : e₁.Perm e₂)
    (hkeys : (e₁.map Entry.key).Pairwise (fun a b => a ≠ b)) :
    enumOrder e₁ = enumOrder e₂ := by
  haveI : IsAntisymm Entry (fun a b => a.key < b.key) :=
    ⟨fun _ _ h1 h2 => ((Nat.lt_asymm h1) h2).elim⟩
  have hne1 : e₁.Pairwise (fun a b => a.key ≠ b.key) := List.pairwise_map.mp hkeys
  have hne2 : e₂.Pairwise (fun a b => a.key ≠ b.key) :=
    (hperm.pairwise_iff (fun h => h.symm)).mp hne1
  have hs1 : List.Sorted (fun a b : Entry => a.key < b.key) (enumOrder e₁) :=
    enumOrder_pairwise_lt e₁ hne1
  have hs2 : List.Sorted (fun a b : Entry => a.key < b.key) (enumOrder e₂) :=
    enumOrder_pairwise_lt e₂ hne2
  exact List.eq_of_perm_of_sorted
    (((List.perm_insertionSort keyLE e₁).trans hperm).trans
      (List.perm_insertionSort keyLE e₂).symm) hs1 hs2

/-- C3 (amended): the k points handed to the interpolator are the first k
records in ascending numeric order of share identifier — the JS `for...in`
enumeration order of canonical integer keys — not in declared order; hence
for records with pairwise-distinct identifiers the whole pipeline is
invariant under permuting the declaration order, and the records with the
k smallest identifiers, not the declared-first k, determine the secret. -/
theorem mainSecret_perm_invariant (e₁ e₂ : List Entry) (k : Nat)
    (hperm : e₁.Perm e₂)
    (hkeys : (e₁.map Entry.key).Pairwise (fun a b => a ≠ b)) :
    mainPointsToUse e₁ k = mainPointsToUse e₂ k ∧ mainSecret e₁ k = mainSecret e₂ k := by
  have h := enumOrder_eq_of_perm e₁ e₂ hperm hkeys
  constructor
  · simp [mainPointsToUse, getPointsFromJSON, h]
  · simp [mainSecret, getPointsFromJSON, h]

/-- Witness for the amended C3: swapping the two declared records changes
neither the selected points nor the secret. -/
theorem mainSecret_perm_invariant_witness :
    ([⟨2, 10, ['5']⟩, ⟨1, 10, ['7']⟩] : List Entry).Perm [⟨1, 10, ['7']⟩, ⟨2, 10, ['5']⟩] ∧
      mainPointsToUse [⟨2, 10, ['5']⟩, ⟨1, 10, ['7']⟩] 1 =
          mainPointsToUse [⟨1, 10, ['7']⟩, ⟨2, 10, ['5']⟩] 1 ∧
      mainSecret [⟨2, 10, ['5']⟩, ⟨1, 10, ['7']⟩] 1 =
          mainSecret [⟨1, 10, ['7']⟩, ⟨2, 10, ['5']⟩] 1 :=
  ⟨List.Perm.swap _ _ _,
    (mainSecret_perm_invariant _ _ 1 (List.Perm.swap _ _ _) (by decide)).1,
    (mainSecret_perm_invariant _ _ 1 (List.Perm.swap _ _ _) (by decide)).2⟩

end Solve
